import Mathlib

/-!
Shallow embedding of the Hexapawn repository (src/hexapawn.py, src/bot.py,
src/cli.py, src/gui.py) and verification of its specification claims.

Conventions of the embedding:
* Python strings standing for cells (the constants WHITE_PAWN / BLACK_PAWN /
  EMPTY) become the inductive type `Cell`; the turn argument, which in the
  source is always one of the piece constants WHITE or BLACK, becomes `Side`.
* Python list indexing (which accepts negative indices and raises IndexError
  otherwise) is modelled by `pyIdx` / `pyGet` / `pySet`; failure of a Python
  operation (IndexError or a failing assert) is modelled by `Option` with
  `none` for the aborted computation.
* Mutation is modelled by explicit state passing: `Knowledge.notify` returns
  the grown knowledge base, `result` returns the new board.
-/

namespace Hexapawn

/-- Cell values of the grid: the string constants WHITE_PAWN, BLACK_PAWN and
EMPTY of src/hexapawn.py. -/
inductive Cell where
  | white
  | black
  | empty
deriving DecidableEq

/-- A moving side. The turn argument of the source functions is always one of
the piece constants WHITE or BLACK, so it is modelled by this two-element
type; passing any other string makes the source abort on an assert. -/
inductive Side where
  | white
  | black
deriving DecidableEq

/-- The pawn constant belonging to a side. -/
def Side.cell : Side → Cell
  | .white => Cell.white
  | .black => Cell.black

/-- A board: list of rows of cells, list[list[str]] in the source. -/
abbrev Board := List (List Cell)

/-- A position (row, column). Python ints, so negative values can be supplied
by callers. -/
abbrev Pos := Int × Int

/-- A move [departure, destination] as stored by the shells and by Mistake
records. -/
abbrev Move := Pos × Pos

/-- Effective index of Python list indexing xs[i] for a list of length len:
nonnegative indices are used as is, indices in [-len, 0) count from the end,
anything else raises IndexError (modelled as none). -/
def pyIdx (len : Nat) (i : Int) : Option Nat :=
  if 0 ≤ i ∧ i < (len : Int) then some i.toNat
  else if -(len : Int) ≤ i ∧ i < 0 then some ((len : Int) + i).toNat
  else none

/-- Python xs[i] for reading. -/
def pyGet (xs : List α) (i : Int) : Option α :=
  (pyIdx xs.length i).bind (fun k => xs[k]?)

/-- Python xs[i] = v (functional version of the in-place update). -/
def pySet (xs : List α) (i : Int) (v : α) : Option (List α) :=
  (pyIdx xs.length i).map (fun k => xs.set k v)

/-- Python board[i][j] for reading a cell. -/
def cell? (board : Board) (i j : Int) : Option Cell :=
  (pyGet board i).bind (fun row => pyGet row j)

/-- Python board[i][j] = v: fetch row i, update column j, put the row back. -/
def pySetCell (board : Board) (i j : Int) (v : Cell) : Option Board :=
  (pyIdx board.length i).bind (fun r =>
    (board[r]?).bind (fun row =>
      (pySet row j v).map (fun row2 => board.set r row2)))

/-- The column loop body of initial_state (src/hexapawn.py lines 68-71):
board[0][j] = BLACK; board[m-1][j] = WHITE for j = 0, ..., count-1 in
ascending order. -/
def initLoop (m : Nat) : Nat → Board → Option Board
  | 0, b => some b
  | j + 1, b =>
    (initLoop m j b).bind (fun b0 =>
      (pySetCell b0 0 (j : Int) Cell.black).bind (fun b1 =>
        pySetCell b1 ((m : Int) - 1) (j : Int) Cell.white))

/-- initial_state(m, n) of src/hexapawn.py lines 66-72: an m-row grid of EMPTY
cells, then row 0 is overwritten with BLACK and row m-1 with WHITE, column by
column. The source performs no precondition check; the only possible failure
is the IndexError of board[0] when m = 0 and the loop runs (n greater than 0). -/
def initial_state (m n : Nat) : Option Board :=
  initLoop m n (List.replicate m (List.replicate n Cell.empty))

/-- The pair (direction, opponent) assigned in actions
(src/hexapawn.py lines 98-103). -/
def dirOpp : Side → Int × Cell
  | .white => (-1, Cell.black)
  | .black => (1, Cell.white)

/-- The destinations collected for the piece at (i, j) in actions
(src/hexapawn.py lines 110-125), in source order: forward, diag_left,
diag_right, each guarded by the bound checks and the cell test of the source.
The forward check only bounds the row, exactly as in the source. -/
def pawnMoves (board : Board) (m n : Nat) (d : Int) (opponent : Cell)
    (i j : Nat) : List Pos :=
  let forward : Pos := ((i : Int) + d, (j : Int))
  let diag_left : Pos := ((i : Int) + d, (j : Int) - 1)
  let diag_right : Pos := ((i : Int) + d, (j : Int) + 1)
  (if 0 ≤ forward.1 ∧ forward.1 < (m : Int)
      ∧ cell? board forward.1 forward.2 = some Cell.empty
    then [forward] else [])
  ++ (if 0 ≤ diag_left.1 ∧ diag_left.1 < (m : Int)
        ∧ 0 ≤ diag_left.2 ∧ diag_left.2 < (n : Int)
        ∧ cell? board diag_left.1 diag_left.2 = some opponent
      then [diag_left] else [])
  ++ (if 0 ≤ diag_right.1 ∧ diag_right.1 < (m : Int)
        ∧ 0 ≤ diag_right.2 ∧ diag_right.2 < (n : Int)
        ∧ cell? board diag_right.1 diag_right.2 = some opponent
      then [diag_right] else [])

/-- The inner loop of actions over one row (for j, piece in enumerate(row)):
a source key (i, j) enters the mapping exactly when at least one destination
was appended for it, since possible_moves is a defaultdict. -/
def actionsRow (board : Board) (m n : Nat) (d : Int) (opponent turnCell : Cell)
    (i : Nat) : Nat → List Cell → List (Pos × List Pos)
  | _, [] => []
  | j, piece :: rest =>
    (if piece = turnCell then
      (let ms := pawnMoves board m n d opponent i j
       if ms = [] then [] else [(((i : Int), (j : Int)), ms)])
     else [])
    ++ actionsRow board m n d opponent turnCell i (j + 1) rest

/-- The outer loop of actions over rows (for i, row in enumerate(board)). -/
def actionsRows (board : Board) (m n : Nat) (d : Int) (opponent turnCell : Cell) :
    Nat → List (List Cell) → List (Pos × List Pos)
  | _, [] => []
  | i, row :: rest =>
    actionsRow board m n d opponent turnCell i 0 row
    ++ actionsRows board m n d opponent turnCell (i + 1) rest

/-- actions(board, turn) of src/hexapawn.py lines 93-127, as the association
list of the insertion-ordered dict it builds: keys are sources in row-major
order, values the destination lists in forward/diag_left/diag_right order.
The source computes n as len(board[0]), which raises on an empty board; the
embedding uses the head row's length with default 0 (on an empty board both
produce no entries, the theorems below restrict to nonempty boards where the
source is defined). -/
def actions (board : Board) (turn : Side) : List (Pos × List Pos) :=
  let m := board.length
  let n := (board.headD []).length
  let dc := dirOpp turn
  actionsRows board m n dc.1 dc.2 turn.cell 0 board

/-- result(board, depart, dest) of src/hexapawn.py lines 130-142: asserts
0 <= dest row < m and 0 <= dest col < n (n = len(board[0])), then, on a deep
copy, new_board[dest] = new_board[depart]; new_board[depart] = EMPTY.
The departure is only constrained by Python list indexing itself:
out-of-range raises (none), negative in-range indices count from the end. -/
def result (board : Board) (depart dest : Pos) : Option Board :=
  let m := board.length
  let n := ((pyGet board 0).getD []).length
  if 0 ≤ dest.1 ∧ dest.1 < (m : Int) ∧ 0 ≤ dest.2 ∧ dest.2 < (n : Int) then
    (cell? board depart.1 depart.2).bind (fun piece =>
      (pySetCell board dest.1 dest.2 piece).bind (fun b1 =>
        pySetCell b1 depart.1 depart.2 Cell.empty))
  else none

/-- any(piece == WHITE for piece in board[0]) (src/hexapawn.py line 147). -/
def white_reached_top (board : Board) : Bool :=
  ((pyGet board 0).getD []).any (fun piece => decide (piece = Cell.white))

/-- any(piece == BLACK for piece in board[-1]) (src/hexapawn.py line 148). -/
def black_reached_bottom (board : Board) : Bool :=
  ((pyGet board (-1)).getD []).any (fun piece => decide (piece = Cell.black))

/-- terminal(board, turn) of src/hexapawn.py lines 145-152. -/
def terminal (board : Board) (turn : Side) : Bool :=
  white_reached_top board
  || black_reached_bottom board
  || (decide (turn = Side.white) && (actions board Side.white).isEmpty)
  || (decide (turn = Side.black) && (actions board Side.black).isEmpty)

/-- utility(board, turn) of src/hexapawn.py lines 155-166. The source returns
one of the strings WHITE or BLACK, or aborts on assert False when no branch
applies; the abort is modelled by none. -/
def utility (board : Board) (turn : Side) : Option Cell :=
  if white_reached_top board then some Cell.white
  else if black_reached_bottom board then some Cell.black
  else if turn = Side.black ∧ (actions board Side.black).isEmpty then some Cell.white
  else if turn = Side.white ∧ (actions board Side.white).isEmpty then some Cell.black
  else none

/-- Node of src/bot.py lines 32-37: a decision point holding the board before
the move, the previous node, and the action taken. -/
inductive Node where
  | mk : Board → Option Node → Move → Node

/-- The state field of a Node. -/
def Node.state : Node → Board
  | .mk s _ _ => s

/-- The parent field of a Node. -/
def Node.parent : Node → Option Node
  | .mk _ p _ => p

/-- The action field of a Node. -/
def Node.action : Node → Move
  | .mk _ _ a => a

/-- Mistake of src/bot.py lines 53-65: a configuration and a faulty action.
Its __eq__ is structural equality of both components, which DecidableEq
mirrors. -/
structure Mistake where
  configuration : Board
  fault_action : Move
deriving DecidableEq

/-- Knowledge of src/bot.py lines 73-91: the growing list of mistakes. -/
structure Knowledge where
  mistakes : List Mistake
deriving DecidableEq

/-- Knowledge.notify: self.mistakes.append(mistake). -/
def Knowledge.notify (k : Knowledge) (m : Mistake) : Knowledge :=
  ⟨k.mistakes ++ [m]⟩

/-- Knowledge.is_mistake: Mistake(configuration, action) in self.mistakes. -/
def Knowledge.is_mistake (k : Knowledge) (configuration : Board)
    (action : Move) : Bool :=
  decide (Mistake.mk configuration action ∈ k.mistakes)

/-- fault_tally of Knowledge.catch22 (src/bot.py line 90): the number of
recorded mistakes whose configuration equals this exact board. -/
def Knowledge.fault_tally (k : Knowledge) (configuration : Board) : Nat :=
  k.mistakes.countP (fun mk => decide (mk.configuration = configuration))

/-- total_moves of Knowledge.catch22 (src/bot.py line 89): the number of legal
moves of BLACK at the configuration. -/
def total_black_moves (configuration : Board) : Nat :=
  ((actions configuration Side.black).map (fun pm => pm.2.length)).sum

/-- Knowledge.catch22 (src/bot.py lines 86-91):
total_moves - 1 == fault_tally, computed with Python integers. -/
def Knowledge.catch22 (k : Knowledge) (configuration : Board) : Bool :=
  decide ((total_black_moves configuration : Int) - 1
    = (k.fault_tally configuration : Int))

/-- review_reflect of src/cli.py lines 33-41 and src/gui.py lines 110-117:
walk the history while the current node exists and catch22 holds at its
board, recording a mistake and moving to the parent; if a node remains after
the loop, record one final mistake there. -/
def review_reflect (k : Knowledge) : Option Node → Knowledge
  | none => k
  | some (Node.mk st parent act) =>
    if k.catch22 st then review_reflect (k.notify ⟨st, act⟩) parent
    else k.notify ⟨st, act⟩

/-- The black move selection shared by src/cli.py lines 70-78 and src/gui.py
lines 202-211: scan actions(board, BLACK) in order and return the first
(pawn, move) that is not a known mistake; none when every enumerated move is
a known mistake (the for loops complete without selecting). -/
def black_choice (k : Knowledge) (board : Board) : Option Move :=
  (actions board Side.black).findSome? (fun pm =>
    (pm.2.find? (fun mv => !(k.is_mistake board (pm.1, mv)))).map
      (fun mv => (pm.1, mv)))

/-- All legal black moves in the enumeration order of the selection loops:
sources in actions order (row-major), destinations in the per-source order. -/
def move_list (board : Board) : List Move :=
  (actions board Side.black).flatMap (fun pm => pm.2.map (fun mv => (pm.1, mv)))

/-- The black branch of the cli game loop (src/cli.py lines 69-86): select a
move, push the node, apply the move. When every move is a known mistake the
source reaches assert False (after an IndexError if there are no moves at
all), so the turn aborts: none. -/
def cli_black_turn (k : Knowledge) (board : Board) (history : Option Node) :
    Option (Option Node × Board) :=
  match black_choice k board with
  | none => none
  | some (depart, dest) =>
    (result board depart dest).map
      (fun b => (some (Node.mk board history (depart, dest)), b))

/-- The black branch of the gui game loop (src/gui.py lines 201-212): like the
cli branch, except that when every move is a known mistake the for loops fall
through without selecting, no move is made, and the turn silently passes with
board and history unchanged. -/
def gui_black_turn (k : Knowledge) (board : Board) (history : Option Node) :
    Option (Option Node × Board) :=
  match black_choice k board with
  | none => some (history, board)
  | some (depart, dest) =>
    (result board depart dest).map
      (fun b => (some (Node.mk board history (depart, dest)), b))

/-- The chain of (state, action) pairs from the most recent node back to the
game's start. -/
def chainList : Option Node → List (Board × Move)
  | none => []
  | some (Node.mk st parent act) => (st, act) :: chainList parent

/-- Modelled from the spec: the length of the maximal initial segment of the
chain (walking from the head toward the game's start) on which is_forced_loss
is true, with the memory evolving as each walked mistake is recorded; used to
compare review_reflect against the wording of the claim. -/
def spec_forced_run (k : Knowledge) : List (Board × Move) → Nat
  | [] => 0
  | (st, act) :: rest =>
    if k.catch22 st then spec_forced_run (k.notify ⟨st, act⟩) rest + 1 else 0

/-- Number of nonempty cells of a board. -/
def totalPieces (board : Board) : Nat :=
  (board.map (fun row => row.countP (fun x => decide (x ≠ Cell.empty)))).sum

/-- Number of cells holding the given value. -/
def cellCount (c : Cell) (board : Board) : Nat :=
  (board.map (fun row => row.countP (fun x => decide (x = c)))).sum

/-- The initial 3x3 board of the shells (initial_state(3, 3)). -/
def init3 : Board :=
  [[Cell.black, Cell.black, Cell.black],
   [Cell.empty, Cell.empty, Cell.empty],
   [Cell.white, Cell.white, Cell.white]]

/-- Reading a cell at canonical (nonnegative) coordinates; used to state
cell-by-cell properties without the negative-index aliasing of `cell?`. -/
def cellN (board : Board) (r c : Nat) : Option Cell :=
  board[r]?.bind (fun row => row[c]?)

/-- Row-major order on source positions: earlier row, or same row and earlier
column. -/
def sourceLt (p q : Pos) : Prop :=
  p.1 < q.1 ∨ (p.1 = q.1 ∧ p.2 < q.2)

/-- A knowledge base in which all three opening moves of black on the 3x3
board are recorded mistakes. -/
def exhausted3 : Knowledge :=
  ⟨[⟨init3, (((0 : Int), (0 : Int)), ((1 : Int), (0 : Int)))⟩,
    ⟨init3, (((0 : Int), (1 : Int)), ((1 : Int), (1 : Int)))⟩,
    ⟨init3, (((0 : Int), (2 : Int)), ((1 : Int), (2 : Int)))⟩]⟩

/-- A board at which black has exactly two legal moves: the pawn at (0, 0)
can advance to (1, 0) or capture the white pawn at (1, 1). -/
def twoMoveBoard : Board :=
  [[Cell.black, Cell.empty, Cell.empty],
   [Cell.empty, Cell.white, Cell.empty],
   [Cell.empty, Cell.white, Cell.white]]

/-- One recorded mistake at twoMoveBoard: the straight advance. -/
def oneMistake : Knowledge :=
  ⟨[⟨twoMoveBoard, (((0 : Int), (0 : Int)), ((1 : Int), (0 : Int)))⟩]⟩

/-- A board on which black has a diagonal capture available: the pawn at
(0, 1) can capture the white pawn at (1, 0). -/
def captureBoard : Board :=
  [[Cell.black, Cell.black, Cell.black],
   [Cell.white, Cell.empty, Cell.empty],
   [Cell.empty, Cell.white, Cell.white]]

/-!  Basic facts about the Python-indexing model. -/

theorem pyIdx_ofNat (len k : Nat) :
    pyIdx len (k : Int) = if k < len then some k else none := by
  unfold pyIdx
  split_ifs with h1 h2 h3 <;> simp_all <;> omega

theorem pyGet_ofNat (xs : List α) (k : Nat) : pyGet xs (k : Int) = xs[k]? := by
  unfold pyGet
  rw [pyIdx_ofNat]
  by_cases h : k < xs.length
  · simp [h]
  · simp [h]
    omega

theorem pySet_ofNat (xs : List α) (k : Nat) (v : α) :
    pySet xs (k : Int) v = if k < xs.length then some (xs.set k v) else none := by
  unfold pySet
  rw [pyIdx_ofNat]
  by_cases h : k < xs.length <;> simp [h]

theorem pyIdx_isSome_iff (len : Nat) (i : Int) :
    (pyIdx len i).isSome = true ↔ (-(len : Int) ≤ i ∧ i < (len : Int)) := by
  unfold pyIdx
  split_ifs with h1 h2 <;> simp <;> omega

theorem cellN_eq_cell? (board : Board) (r c : Nat) :
    cell? board (r : Int) (c : Int) = cellN board r c := by
  unfold cell? cellN
  rw [pyGet_ofNat]
  cases board[r]? with
  | none => rfl
  | some row => simp [pyGet_ofNat]

/-!  Claim C2: the Catch-22 test. -/

/-- Claim C2: for every memory state and every nonempty board (the source
raises on an empty board), catch22 returns true iff the number of mistake
records for this exact board equals the total number of legal black moves
minus one; in particular two legal moves and one recorded mistake give true. -/
theorem c2_catch22_iff (k : Knowledge) (c : Board) (hc : c ≠ []) :
    (k.catch22 c = true ↔ (k.fault_tally c : Int) = (total_black_moves c : Int) - 1)
    ∧ (total_black_moves c = 2 → k.fault_tally c = 1 → k.catch22 c = true) := by
  constructor
  · unfold Knowledge.catch22
    simp only [decide_eq_true_eq]
    omega
  · intro h1 h2
    unfold Knowledge.catch22
    rw [h1, h2]
    decide

/-- Witness for C2 at the two-move board with one recorded mistake. -/
theorem c2_catch22_iff_witness :
    twoMoveBoard ≠ [] ∧ total_black_moves twoMoveBoard = 2
      ∧ oneMistake.fault_tally twoMoveBoard = 1
      ∧ oneMistake.catch22 twoMoveBoard = true := by
  refine ⟨by decide, by decide, by decide, ?_⟩
  exact (c2_catch22_iff oneMistake twoMoveBoard (by decide)).2 (by decide) (by decide)

/-!  Claim C6: terminal agrees with utility. -/

/-- Claim C6: for every nonempty board (the source raises on an empty one) and
side to move, terminal is true exactly when utility succeeds, and utility
follows the edge-row / no-moves rule of the source. -/
theorem c6_terminal_utility (board : Board) (turn : Side) (hb : board ≠ []) :
    (terminal board turn = true ↔ (utility board turn).isSome = true)
    ∧ utility board turn
      = (if white_reached_top board then some Cell.white
         else if black_reached_bottom board then some Cell.black
         else if turn = Side.black ∧ (actions board Side.black).isEmpty then some Cell.white
         else if turn = Side.white ∧ (actions board Side.white).isEmpty then some Cell.black
         else none) := by
  refine ⟨?_, rfl⟩
  unfold terminal utility
  cases turn <;>
    cases h1 : white_reached_top board <;>
      cases h2 : black_reached_bottom board <;>
        cases h3 : (actions board Side.white).isEmpty <;>
          cases h4 : (actions board Side.black).isEmpty <;>
            simp [h1, h2, h3, h4]

/-- Witness for C6 at the initial board with white to move. -/
theorem c6_terminal_utility_witness :
    init3 ≠ [] ∧
    ((terminal init3 Side.white = true ↔ (utility init3 Side.white).isSome = true)
      ∧ utility init3 Side.white
        = (if white_reached_top init3 then some Cell.white
           else if black_reached_bottom init3 then some Cell.black
           else if Side.white = Side.black ∧ (actions init3 Side.black).isEmpty then some Cell.white
           else if Side.white = Side.white ∧ (actions init3 Side.white).isEmpty then some Cell.black
           else none)) :=
  ⟨by decide, c6_terminal_utility init3 Side.white (by decide)⟩

/-!  Claim C1: the backward analysis records exactly the forced run plus one. -/

/-- The walk of review_reflect, re-stated over the chain as a list: the
recorded mistakes are the chain nodes up to and including the first node at
which catch22 fails (with the memory evolving), and nothing beyond it. -/
theorem review_reflect_chain (l : List (Board × Move)) :
    ∀ (k : Knowledge) (h : Option Node), chainList h = l →
      (review_reflect k h).mistakes
        = k.mistakes
          ++ (l.take (min (spec_forced_run k l + 1) l.length)).map
              (fun ba => Mistake.mk ba.1 ba.2) := by
  induction l with
  | nil =>
    intro k h hh
    cases h with
    | none => simp [review_reflect]
    | some n =>
      cases n with
      | mk st parent act => simp [chainList] at hh
  | cons hd tl ih =>
    intro k h hh
    cases h with
    | none => simp [chainList] at hh
    | some n =>
      cases n with
      | mk st parent act =>
        rw [chainList] at hh
        injection hh with hh1 hh2
        subst hh1
        subst hh2
        simp only [review_reflect, spec_forced_run, List.length_cons]
        by_cases hc : k.catch22 st = true
        · rw [if_pos hc, if_pos hc]
          rw [ih (k.notify ⟨st, act⟩) parent rfl]
          have hmin : min (spec_forced_run (k.notify ⟨st, act⟩) (chainList parent) + 1 + 1)
              ((chainList parent).length + 1)
              = min (spec_forced_run (k.notify ⟨st, act⟩) (chainList parent) + 1)
                  (chainList parent).length + 1 := by omega
          rw [hmin, List.take_succ_cons]
          simp [Knowledge.notify]
        · rw [if_neg hc, if_neg hc]
          have hmin : min (0 + 1) ((chainList parent).length + 1)
              = 0 + 1 := by omega
          rw [hmin, List.take_succ_cons]
          simp [Knowledge.notify]

/-- Claim C1: review_reflect, run on any memory and any history chain, appends
one mistake per node of the maximal catch22-true initial segment of the chain
and one further mistake at the first catch22-false node when one exists
(the take is cut off by the chain length otherwise), and appends nothing for
an empty chain; no older ancestor is recorded. -/
theorem c1_review_reflect_walk (k : Knowledge) (h : Option Node) :
    (review_reflect k h).mistakes
      = k.mistakes
        ++ ((chainList h).take
            (min (spec_forced_run k (chainList h) + 1) (chainList h).length)).map
            (fun ba => Mistake.mk ba.1 ba.2) :=
  review_reflect_chain (chainList h) k h rfl

/-!  Claim C3: the move selection takes the first non-mistake in actions
order. -/

/-- The nested for loops of the selection are the first hit of the flattened
enumeration. -/
theorem black_choice_eq_find (k : Knowledge) (board : Board) :
    black_choice k board
      = (move_list board).find? (fun mv => !(k.is_mistake board mv)) := by
  unfold black_choice move_list
  induction actions board Side.black with
  | nil => simp
  | cons pm rest ih =>
    rw [List.flatMap_cons, List.find?_append, List.find?_map, List.findSome?_cons]
    rw [← ih]
    have hcomp : ((fun mv => !(k.is_mistake board mv)) ∘ (fun mv => (pm.1, mv)))
        = (fun mv => !(k.is_mistake board (pm.1, mv))) := rfl
    rw [hcomp]
    cases hf : pm.2.find? (fun mv => !(k.is_mistake board (pm.1, mv))) with
    | none => simp [hf]
    | some mv => simp [hf]

/-- Every key produced by the inner actions loop lies in row i at a column at
or after the running index. -/
theorem actionsRow_key (board : Board) (m n : Nat) (d : Int) (o tc : Cell)
    (i : Nat) :
    ∀ (j0 : Nat) (row : List Cell) (e : Pos × List Pos),
      e ∈ actionsRow board m n d o tc i j0 row →
      ∃ jj : Nat, j0 ≤ jj ∧ e.1 = ((i : Int), (jj : Int)) := by
  intro j0 row
  induction row generalizing j0 with
  | nil => intro e he; simp [actionsRow] at he
  | cons piece rest ih =>
    intro e he
    simp only [actionsRow, List.mem_append] at he
    rcases he with he | he
    · by_cases h1 : piece = tc
      · rw [if_pos h1] at he
        by_cases h2 : pawnMoves board m n d o i j0 = []
        · rw [if_pos h2] at he
          simp at he
        · rw [if_neg h2] at he
          rw [List.mem_singleton] at he
          exact ⟨j0, Nat.le_refl j0, by rw [he]⟩
      · rw [if_neg h1] at he
        simp at he
    · obtain ⟨jj, hjj, he⟩ := ih (j0 + 1) e he
      exact ⟨jj, by omega, he⟩

/-- The inner actions loop produces keys in strictly increasing column
order within the row. -/
theorem actionsRow_pairwise (board : Board) (m n : Nat) (d : Int) (o tc : Cell)
    (i : Nat) :
    ∀ (j0 : Nat) (row : List Cell),
      List.Pairwise (fun p q => sourceLt p.1 q.1)
        (actionsRow board m n d o tc i j0 row) := by
  intro j0 row
  induction row generalizing j0 with
  | nil => simp [actionsRow]
  | cons piece rest ih =>
    simp only [actionsRow]
    rw [List.pairwise_append]
    refine ⟨?_, ih (j0 + 1), ?_⟩
    · by_cases h1 : piece = tc
      · rw [if_pos h1]
        by_cases h2 : pawnMoves board m n d o i j0 = []
        · rw [if_pos h2]; simp
        · rw [if_neg h2]; simp
      · rw [if_neg h1]; simp
    · intro a ha b hb
      obtain ⟨jj, hjj, hb1⟩ := actionsRow_key board m n d o tc i (j0 + 1) rest b hb
      by_cases h1 : piece = tc
      · rw [if_pos h1] at ha
        by_cases h2 : pawnMoves board m n d o i j0 = []
        · rw [if_pos h2] at ha; simp at ha
        · rw [if_neg h2] at ha
          rw [List.mem_singleton] at ha
          rw [ha, hb1]
          right
          constructor
          · rfl
          · simp only []
            omega
      · rw [if_neg h1] at ha; simp at ha

/-- Every key produced by the outer actions loop lies in a row at or after the
running row index. -/
theorem actionsRows_key (board : Board) (m n : Nat) (d : Int) (o tc : Cell) :
    ∀ (i0 : Nat) (rows : List (List Cell)) (e : Pos × List Pos),
      e ∈ actionsRows board m n d o tc i0 rows →
      ∃ ii jj : Nat, i0 ≤ ii ∧ e.1 = ((ii : Int), (jj : Int)) := by
  intro i0 rows
  induction rows generalizing i0 with
  | nil => intro e he; simp [actionsRows] at he
  | cons row rest ih =>
    intro e he
    simp only [actionsRows, List.mem_append] at he
    rcases he with he | he
    · obtain ⟨jj, _, he⟩ := actionsRow_key board m n d o tc i0 0 row e he
      exact ⟨i0, jj, Nat.le_refl i0, he⟩
    · obtain ⟨ii, jj, hii, he⟩ := ih (i0 + 1) e he
      exact ⟨ii, jj, by omega, he⟩

/-- The keys of actions are pairwise increasing in row-major order. -/
theorem actions_pairwise (board : Board) (turn : Side) :
    List.Pairwise (fun p q => sourceLt p.1 q.1) (actions board turn) := by
  unfold actions
  generalize board.length = m
  generalize (board.headD []).length = n
  have main : ∀ (i0 : Nat) (rows : List (List Cell)),
      List.Pairwise (fun p q => sourceLt p.1 q.1)
        (actionsRows board m n (dirOpp turn).1 (dirOpp turn).2 turn.cell i0 rows) := by
    intro i0 rows
    induction rows generalizing i0 with
    | nil => simp [actionsRows]
    | cons row rest ih =>
      simp only [actionsRows]
      rw [List.pairwise_append]
      refine ⟨actionsRow_pairwise board m n (dirOpp turn).1 (dirOpp turn).2
        turn.cell i0 0 row, ih (i0 + 1), ?_⟩
      intro a ha b hb
      obtain ⟨ja, _, ha1⟩ := actionsRow_key board m n (dirOpp turn).1
        (dirOpp turn).2 turn.cell i0 0 row a ha
      obtain ⟨ib, jb, hib, hb1⟩ := actionsRows_key board m n (dirOpp turn).1
        (dirOpp turn).2 turn.cell (i0 + 1) rest b hb
      rw [ha1, hb1]
      left
      simp only []
      omega
  exact main 0 board

/-- Claim C3: whenever some legal black move is not a known mistake, the
selection returns the first non-mistake move of the flattened enumeration,
whose sources are in strictly increasing row-major order (each source's
destination list being built in forward, diag_left, diag_right order by
construction of pawnMoves). -/
theorem c3_black_choice_first (k : Knowledge) (board : Board)
    (hex : ∃ mv ∈ move_list board, k.is_mistake board mv = false) :
    black_choice k board
        = (move_list board).find? (fun mv => !(k.is_mistake board mv))
      ∧ (black_choice k board).isSome = true
      ∧ List.Pairwise (fun p q => sourceLt p.1 q.1) (actions board Side.black) := by
  refine ⟨black_choice_eq_find k board, ?_, actions_pairwise board Side.black⟩
  rw [black_choice_eq_find]
  obtain ⟨mv, hmem, hmv⟩ := hex
  have : ∃ x, x ∈ move_list board ∧ (!(k.is_mistake board x)) = true :=
    ⟨mv, hmem, by simp [hmv]⟩
  simpa [List.find?_isSome] using this

/-- Witness for C3: with empty knowledge on the initial board, black picks the
straight advance of its leftmost pawn. -/
theorem c3_black_choice_first_witness :
    (∃ mv ∈ move_list init3, (Knowledge.mk []).is_mistake init3 mv = false)
      ∧ black_choice ⟨[]⟩ init3
          = some (((0 : Int), (0 : Int)), ((1 : Int), (0 : Int))) := by
  refine ⟨⟨(((0 : Int), (0 : Int)), ((1 : Int), (0 : Int))), by decide, by decide⟩, ?_⟩
  have h := (c3_black_choice_first ⟨[]⟩ init3
    ⟨(((0 : Int), (0 : Int)), ((1 : Int), (0 : Int))), by decide, by decide⟩).1
  rw [h]
  decide

/-!  Claim C4: behavior when every legal move is a known mistake. -/

/-- When every enumerated move is a known mistake the selection loops fall
through without selecting. -/
theorem black_choice_eq_none (k : Knowledge) (board : Board)
    (hall : ∀ mv ∈ move_list board, k.is_mistake board mv = true) :
    black_choice k board = none := by
  rw [black_choice_eq_find]
  rw [List.find?_eq_none]
  intro mv hmv
  simp [hall mv hmv]

/-- Counterexample to C4 as stated: on the initial board with all three black
moves recorded as mistakes, black has legal moves but the cli turn aborts
(assert False, modelled none) and the gui turn silently passes with the board
unchanged; no distinguishable no-safe-move outcome is produced. -/
theorem c4_counterexample :
    actions init3 Side.black ≠ []
      ∧ (∀ mv ∈ move_list init3, exhausted3.is_mistake init3 mv = true)
      ∧ black_choice exhausted3 init3 = none
      ∧ cli_black_turn exhausted3 init3 none = none
      ∧ gui_black_turn exhausted3 init3 none = some (none, init3) :=
  ⟨by decide, by decide, by decide, rfl, rfl⟩

/-- Amended C4: when black has legal moves but each is a known mistake, the
cli turn aborts via assert False (modelled as none) and the gui turn makes no
move, passing the turn with history and board unchanged; neither shell
surfaces an explicit no-safe-move result. -/
theorem c4_exhausted_behavior (k : Knowledge) (board : Board)
    (history : Option Node)
    (hmoves : actions board Side.black ≠ [])
    (hall : ∀ mv ∈ move_list board, k.is_mistake board mv = true) :
    cli_black_turn k board history = none
      ∧ gui_black_turn k board history = some (history, board) := by
  have h := black_choice_eq_none k board hall
  constructor
  · simp [cli_black_turn, h]
  · simp [gui_black_turn, h]

/-- Witness for the amended C4 at the exhausted initial board. -/
theorem c4_exhausted_behavior_witness :
    cli_black_turn exhausted3 init3 none = none
      ∧ gui_black_turn exhausted3 init3 none = some (none, init3) :=
  c4_exhausted_behavior exhausted3 init3 none (by decide) (by decide)

/-!  Claim C5: characterization of the legal-move mapping. -/

/-- Membership in the destination list of a source: each of the three
candidate destinations is present exactly under its source-code guard. -/
theorem mem_pawnMoves (board : Board) (m n : Nat) (d : Int) (o : Cell)
    (i j : Nat) (q : Pos) :
    q ∈ pawnMoves board m n d o i j ↔
      ((q = ((i : Int) + d, (j : Int))
          ∧ 0 ≤ (i : Int) + d ∧ (i : Int) + d < (m : Int)
          ∧ cell? board ((i : Int) + d) (j : Int) = some Cell.empty)
       ∨ (q = ((i : Int) + d, (j : Int) - 1)
          ∧ 0 ≤ (i : Int) + d ∧ (i : Int) + d < (m : Int)
          ∧ 0 ≤ (j : Int) - 1 ∧ (j : Int) - 1 < (n : Int)
          ∧ cell? board ((i : Int) + d) ((j : Int) - 1) = some o)
       ∨ (q = ((i : Int) + d, (j : Int) + 1)
          ∧ 0 ≤ (i : Int) + d ∧ (i : Int) + d < (m : Int)
          ∧ 0 ≤ (j : Int) + 1 ∧ (j : Int) + 1 < (n : Int)
          ∧ cell? board ((i : Int) + d) ((j : Int) + 1) = some o)) := by
  simp only [pawnMoves, List.mem_append, List.mem_ite_nil_right, List.mem_singleton]
  tauto

/-- Membership in the inner actions loop: an entry exists for each cell of
the row that holds the moving piece and has at least one destination. -/
theorem mem_actionsRow (board : Board) (m n : Nat) (d : Int) (o tc : Cell)
    (i : Nat) :
    ∀ (j0 : Nat) (row : List Cell) (e : Pos × List Pos),
      e ∈ actionsRow board m n d o tc i j0 row ↔
        ∃ t : Nat, row[t]? = some tc
          ∧ pawnMoves board m n d o i (j0 + t) ≠ []
          ∧ e = (((i : Int), ((j0 + t : Nat) : Int)),
                 pawnMoves board m n d o i (j0 + t)) := by
  intro j0 row
  induction row generalizing j0 with
  | nil => intro e; simp [actionsRow]
  | cons piece rest ih =>
    intro e
    simp only [actionsRow, List.mem_append]
    constructor
    · intro he
      rcases he with he | he
      · by_cases h1 : piece = tc
        · rw [if_pos h1] at he
          by_cases h2 : pawnMoves board m n d o i j0 = []
          · rw [if_pos h2] at he; simp at he
          · rw [if_neg h2] at he
            rw [List.mem_singleton] at he
            refine ⟨0, by simp [h1], by simpa using h2, by simpa using he⟩
        · rw [if_neg h1] at he; simp at he
      · obtain ⟨t, ht1, ht2, ht3⟩ := (ih (j0 + 1) e).1 he
        have harith : (j0 + 1) + t = j0 + (t + 1) := by omega
        rw [harith] at ht2 ht3
        exact ⟨t + 1, by simpa using ht1, ht2, ht3⟩
    · rintro ⟨t, ht1, ht2, ht3⟩
      cases t with
      | zero =>
        left
        rw [List.getElem?_cons_zero] at ht1
        injection ht1 with ht1
        rw [if_pos ht1]
        rw [Nat.add_zero] at ht2 ht3
        rw [if_neg ht2]
        simp [ht3]
      | succ t =>
        right
        apply (ih (j0 + 1) e).2
        have harith : (j0 + 1) + t = j0 + (t + 1) := by omega
        rw [List.getElem?_cons_succ] at ht1
        rw [← harith] at ht2 ht3
        exact ⟨t, ht1, ht2, ht3⟩

/-- Membership in the outer actions loop: entries come row by row. -/
theorem mem_actionsRows (board : Board) (m n : Nat) (d : Int) (o tc : Cell) :
    ∀ (i0 : Nat) (rows : List (List Cell)) (e : Pos × List Pos),
      e ∈ actionsRows board m n d o tc i0 rows ↔
        ∃ r : Nat, ∃ row, rows[r]? = some row
          ∧ e ∈ actionsRow board m n d o tc (i0 + r) 0 row := by
  intro i0 rows
  induction rows generalizing i0 with
  | nil => intro e; simp [actionsRows]
  | cons row rest ih =>
    intro e
    simp only [actionsRows, List.mem_append]
    constructor
    · intro he
      rcases he with he | he
      · exact ⟨0, row, by simp, by simpa using he⟩
      · obtain ⟨r, row', h1, h2⟩ := (ih (i0 + 1) e).1 he
        have harith : (i0 + 1) + r = i0 + (r + 1) := by omega
        rw [harith] at h2
        exact ⟨r + 1, row', by simpa using h1, h2⟩
    · rintro ⟨r, row', h1, h2⟩
      cases r with
      | zero =>
        left
        rw [List.getElem?_cons_zero] at h1
        injection h1 with h1
        rw [Nat.add_zero] at h2
        rw [h1]
        exact h2
      | succ r =>
        right
        apply (ih (i0 + 1) e).2
        have harith : (i0 + 1) + r = i0 + (r + 1) := by omega
        rw [List.getElem?_cons_succ] at h1
        rw [← harith] at h2
        exact ⟨r, row', h1, h2⟩

/-- Characterization of the actions mapping over a rectangular nonempty
board: an entry is present exactly for the sources that hold the moving
side's piece and have a nonempty destination list. -/
theorem mem_actions (board : Board) (turn : Side) (n : Nat)
    (hb : board ≠ []) (hrect : ∀ row ∈ board, row.length = n)
    (p : Pos) (ds : List Pos) :
    (p, ds) ∈ actions board turn ↔
      ∃ i j : Nat, i < board.length ∧ j < n
        ∧ p = ((i : Int), (j : Int))
        ∧ cellN board i j = some turn.cell
        ∧ ds = pawnMoves board board.length n (dirOpp turn).1 (dirOpp turn).2 i j
        ∧ ds ≠ [] := by
  have hn : (board.headD []).length = n := by
    cases board with
    | nil => exact absurd rfl hb
    | cons r rest => exact hrect r (by simp)
  show (p, ds) ∈ actionsRows board board.length (board.headD []).length
      (dirOpp turn).1 (dirOpp turn).2 turn.cell 0 board ↔ _
  rw [hn]
  rw [mem_actionsRows board board.length n (dirOpp turn).1 (dirOpp turn).2
    turn.cell 0 board (p, ds)]
  constructor
  · rintro ⟨r, row, h1, h2⟩
    rw [mem_actionsRow] at h2
    obtain ⟨t, ht1, ht2, ht3⟩ := h2
    simp only [Nat.zero_add] at ht2 ht3
    have hr : r < board.length := by
      rw [List.getElem?_eq_some_iff] at h1
      exact h1.1
    have htlen : t < n := by
      have hrow : row ∈ board := by
        rw [List.getElem?_eq_some_iff] at h1
        obtain ⟨hh, hrow⟩ := h1
        rw [← hrow]
        exact List.getElem_mem hh
      have ht : t < row.length := by
        rw [List.getElem?_eq_some_iff] at ht1
        exact ht1.1
      rw [hrect row hrow] at ht
      exact ht
    have hcell : cellN board r t = some turn.cell := by
      unfold cellN
      rw [h1]
      simpa using ht1
    have hp : p = ((r : Int), (t : Int)) := by
      have := congrArg Prod.fst ht3
      simpa using this
    have hds : ds = pawnMoves board board.length n (dirOpp turn).1
        (dirOpp turn).2 r t := by
      have := congrArg Prod.snd ht3
      simpa using this
    refine ⟨r, t, hr, htlen, hp, hcell, hds, ?_⟩
    rw [hds]
    exact ht2
  · rintro ⟨i, j, hi, hj, hp, hcell, hds, hne⟩
    unfold cellN at hcell
    cases hrow : board[i]? with
    | none =>
      rw [hrow] at hcell
      exact absurd hcell (by simp)
    | some row =>
      rw [hrow] at hcell
      simp only [Option.some_bind] at hcell
      refine ⟨i, row, hrow, ?_⟩
      rw [mem_actionsRow]
      refine ⟨j, hcell, ?_, ?_⟩
      · simp only [Nat.zero_add]
        rw [hds] at hne
        exact hne
      · simp only [Nat.zero_add]
        rw [hp, hds]

/-- Claim C5: over a rectangular nonempty board, actions contains exactly the
sources holding the moving side's piece with at least one destination (never
a source with an empty list), and each candidate destination of a source is
listed exactly under the straight-onto-empty and diagonal-onto-opponent
bound-checked guards of the source code. -/
theorem c5_actions_characterization (board : Board) (turn : Side) (n : Nat)
    (hb : board ≠ []) (hrect : ∀ row ∈ board, row.length = n) :
    (∀ (p : Pos) (ds : List Pos),
      (p, ds) ∈ actions board turn ↔
        ∃ i j : Nat, i < board.length ∧ j < n
          ∧ p = ((i : Int), (j : Int))
          ∧ cellN board i j = some turn.cell
          ∧ ds = pawnMoves board board.length n (dirOpp turn).1 (dirOpp turn).2 i j
          ∧ ds ≠ [])
    ∧ (∀ (i j : Nat) (q : Pos),
        q ∈ pawnMoves board board.length n (dirOpp turn).1 (dirOpp turn).2 i j ↔
          ((q = ((i : Int) + (dirOpp turn).1, (j : Int))
              ∧ 0 ≤ (i : Int) + (dirOpp turn).1
              ∧ (i : Int) + (dirOpp turn).1 < (board.length : Int)
              ∧ cell? board ((i : Int) + (dirOpp turn).1) (j : Int)
                  = some Cell.empty)
           ∨ (q = ((i : Int) + (dirOpp turn).1, (j : Int) - 1)
              ∧ 0 ≤ (i : Int) + (dirOpp turn).1
              ∧ (i : Int) + (dirOpp turn).1 < (board.length : Int)
              ∧ 0 ≤ (j : Int) - 1 ∧ (j : Int) - 1 < (n : Int)
              ∧ cell? board ((i : Int) + (dirOpp turn).1) ((j : Int) - 1)
                  = some (dirOpp turn).2)
           ∨ (q = ((i : Int) + (dirOpp turn).1, (j : Int) + 1)
              ∧ 0 ≤ (i : Int) + (dirOpp turn).1
              ∧ (i : Int) + (dirOpp turn).1 < (board.length : Int)
              ∧ 0 ≤ (j : Int) + 1 ∧ (j : Int) + 1 < (n : Int)
              ∧ cell? board ((i : Int) + (dirOpp turn).1) ((j : Int) + 1)
                  = some (dirOpp turn).2))) :=
  ⟨mem_actions board turn n hb hrect,
   fun i j q => mem_pawnMoves board board.length n (dirOpp turn).1
    (dirOpp turn).2 i j q⟩

/-- Witness for C5: the straight opening advance of black's leftmost pawn is
an entry of actions on the initial board. -/
theorem c5_actions_characterization_witness :
    init3 ≠ [] ∧ (∀ row ∈ init3, row.length = 3)
      ∧ ((((0 : Int), (0 : Int)), [((1 : Int), (0 : Int))]) ∈ actions init3 Side.black ↔
          ∃ i j : Nat, i < init3.length ∧ j < 3
            ∧ (((0 : Int), (0 : Int)) : Pos) = ((i : Int), (j : Int))
            ∧ cellN init3 i j = some Side.black.cell
            ∧ [((1 : Int), (0 : Int))]
                = pawnMoves init3 init3.length 3 (dirOpp Side.black).1
                    (dirOpp Side.black).2 i j
            ∧ ([((1 : Int), (0 : Int))] : List Pos) ≠ []) :=
  ⟨by decide, by decide,
   (c5_actions_characterization init3 Side.black 3 (by decide) (by decide)).1
     ((0 : Int), (0 : Int)) [((1 : Int), (0 : Int))]⟩

/-!  Groundwork on the Python-indexing model for result. -/

theorem pyIdx_some_lt (len : Nat) (i : Int) (k : Nat)
    (h : pyIdx len i = some k) : k < len := by
  unfold pyIdx at h
  split_ifs at h with h1 h2
  · injection h with h
    omega
  · injection h with h
    omega

theorem pyGet_isSome_iff (xs : List α) (i : Int) :
    (pyGet xs i).isSome = true
      ↔ (-(xs.length : Int) ≤ i ∧ i < (xs.length : Int)) := by
  unfold pyGet
  rw [← pyIdx_isSome_iff xs.length i]
  cases h : pyIdx xs.length i with
  | none => simp
  | some k =>
    have hk := pyIdx_some_lt xs.length i k h
    simp [List.getElem?_eq_getElem hk]

theorem pyGet_mem (xs : List α) (i : Int) (a : α) (h : pyGet xs i = some a) :
    a ∈ xs := by
  unfold pyGet at h
  cases hk : pyIdx xs.length i with
  | none => rw [hk] at h; exact absurd h (by simp)
  | some k =>
    rw [hk] at h
    simp only [Option.some_bind] at h
    rw [List.getElem?_eq_some_iff] at h
    obtain ⟨hlt, hv⟩ := h
    rw [← hv]
    exact List.getElem_mem hlt

theorem pySet_isSome_iff (xs : List α) (i : Int) (v : α) :
    (pySet xs i v).isSome = true
      ↔ (-(xs.length : Int) ≤ i ∧ i < (xs.length : Int)) := by
  unfold pySet
  rw [← pyIdx_isSome_iff xs.length i]
  cases pyIdx xs.length i <;> simp

theorem pySet_length (xs : List α) (i : Int) (v : α) (ys : List α)
    (h : pySet xs i v = some ys) : ys.length = xs.length := by
  unfold pySet at h
  cases hk : pyIdx xs.length i with
  | none => rw [hk] at h; exact absurd h (by simp)
  | some k =>
    rw [hk] at h
    simp only [Option.map_some'] at h
    injection h with h
    rw [← h]
    exact List.length_set xs k v

theorem pySetCell_shape (board : Board) (i j : Int) (v : Cell) (b : Board)
    (h : pySetCell board i j v = some b) :
    ∃ (r : Nat) (row row2 : List Cell), r < board.length
      ∧ board[r]? = some row ∧ pySet row j v = some row2
      ∧ b = board.set r row2 ∧ row2.length = row.length := by
  unfold pySetCell at h
  cases hr : pyIdx board.length i with
  | none => rw [hr] at h; exact absurd h (by simp)
  | some r =>
    rw [hr] at h
    simp only [Option.some_bind] at h
    cases hrow : board[r]? with
    | none => rw [hrow] at h; exact absurd h (by simp)
    | some row =>
      rw [hrow] at h
      simp only [Option.some_bind] at h
      cases hrow2 : pySet row j v with
      | none => rw [hrow2] at h; exact absurd h (by simp)
      | some row2 =>
        rw [hrow2] at h
        simp only [Option.map_some'] at h
        injection h with h
        exact ⟨r, row, row2, pyIdx_some_lt board.length i r hr, hrow, hrow2,
          h.symm, pySet_length row j v row2 hrow2⟩

theorem pySetCell_isSome_iff (board : Board) (n : Nat)
    (hrect : ∀ row ∈ board, row.length = n) (i j : Int) (v : Cell) :
    (pySetCell board i j v).isSome = true ↔
      (-(board.length : Int) ≤ i ∧ i < (board.length : Int)
        ∧ -(n : Int) ≤ j ∧ j < (n : Int)) := by
  unfold pySetCell
  cases h : pyIdx board.length i with
  | none =>
    have hi := pyIdx_isSome_iff board.length i
    rw [h] at hi
    simp only [Option.isSome_none, Bool.false_eq_true, false_iff] at hi
    simp only [Option.none_bind, Option.isSome_none, Bool.false_eq_true, false_iff]
    intro hcontra
    exact hi ⟨hcontra.1, hcontra.2.1⟩
  | some r =>
    have hi := pyIdx_isSome_iff board.length i
    rw [h] at hi
    simp only [Option.isSome_some, true_iff] at hi
    have hr := pyIdx_some_lt board.length i r h
    simp only [Option.some_bind]
    rw [List.getElem?_eq_getElem hr]
    simp only [Option.some_bind, Option.isSome_map']
    rw [pySet_isSome_iff]
    have hlen := hrect _ (List.getElem_mem hr)
    rw [hlen]
    constructor
    · intro hj
      exact ⟨hi.1, hi.2, hj.1, hj.2⟩
    · intro hall
      exact ⟨hall.2.2.1, hall.2.2.2⟩

theorem pySetCell_ofNat (board : Board) (r c : Nat) (v : Cell)
    (row : List Cell) (hrow : board[r]? = some row) (hc : c < row.length) :
    pySetCell board (r : Int) (c : Int) v
      = some (board.set r (row.set c v)) := by
  have hr : r < board.length := by
    rw [List.getElem?_eq_some_iff] at hrow
    exact hrow.1
  unfold pySetCell
  rw [pyIdx_ofNat, if_pos hr]
  simp only [Option.some_bind]
  rw [hrow]
  simp only [Option.some_bind]
  rw [pySet_ofNat, if_pos hc]
  simp

theorem cell?_isSome_iff (board : Board) (n : Nat)
    (hrect : ∀ row ∈ board, row.length = n) (i j : Int) :
    (cell? board i j).isSome = true ↔
      (-(board.length : Int) ≤ i ∧ i < (board.length : Int)
        ∧ -(n : Int) ≤ j ∧ j < (n : Int)) := by
  unfold cell?
  cases h : pyGet board i with
  | none =>
    have hi := pyGet_isSome_iff board i
    rw [h] at hi
    simp only [Option.isSome_none, Bool.false_eq_true, false_iff] at hi
    simp only [Option.none_bind, Option.isSome_none, Bool.false_eq_true, false_iff]
    intro hcontra
    exact hi ⟨hcontra.1, hcontra.2.1⟩
  | some row =>
    have hi := pyGet_isSome_iff board i
    rw [h] at hi
    simp only [Option.isSome_some, true_iff] at hi
    have hlen : row.length = n := hrect row (pyGet_mem board i row h)
    simp only [Option.some_bind]
    rw [pyGet_isSome_iff, hlen]
    constructor
    · intro hj
      exact ⟨hi.1, hi.2, hj.1, hj.2⟩
    · intro hall
      exact ⟨hall.2.2.1, hall.2.2.2⟩

/-!  Claim C8: failure behavior of result on out-of-range positions. -/

/-- Counterexample to C8 as stated: the departure (-1, 0) is out of range for
a 3x3 board, yet result does not fail: Python's negative indexing silently
reads and clears the last row, producing a board as if the departure had been
(2, 0). -/
theorem c8_counterexample :
    result init3 ((-1 : Int), (0 : Int)) ((1 : Int), (0 : Int))
        = some [[Cell.black, Cell.black, Cell.black],
                [Cell.white, Cell.empty, Cell.empty],
                [Cell.empty, Cell.white, Cell.white]]
      ∧ ¬ (0 ≤ (-1 : Int)) := by
  exact ⟨by decide, by decide⟩

/-- Amended C8: on a rectangular nonempty board, result fails exactly when
the destination is outside [0, m) x [0, n) (the assert) or the departure is
outside Python's indexable range [-m, m) x [-n, n) (an IndexError); a
negative in-range departure is accepted and silently aliases from the end of
the list, and no legality validation beyond these bounds is performed. -/
theorem c8_result_bounds (board : Board) (n : Nat) (hb : board ≠ [])
    (hrect : ∀ row ∈ board, row.length = n) (i j di dj : Int) :
    (result board (i, j) (di, dj)).isSome = true ↔
      (0 ≤ di ∧ di < (board.length : Int) ∧ 0 ≤ dj ∧ dj < (n : Int)
        ∧ -(board.length : Int) ≤ i ∧ i < (board.length : Int)
        ∧ -(n : Int) ≤ j ∧ j < (n : Int)) := by
  have h0 : pyGet board (0 : Int) = board[0]? := by
    have hcast : ((0 : Nat) : Int) = (0 : Int) := rfl
    rw [← hcast, pyGet_ofNat]
  have hn : ((pyGet board (0 : Int)).getD []).length = n := by
    rw [h0]
    cases board with
    | nil => exact absurd rfl hb
    | cons r rest =>
      rw [List.getElem?_cons_zero]
      simp only [Option.getD_some]
      exact hrect r (by simp)
  simp only [result]
  rw [hn]
  by_cases hA : (0 ≤ di ∧ di < (board.length : Int) ∧ 0 ≤ dj ∧ dj < (n : Int))
  · rw [if_pos hA]
    cases hc : cell? board i j with
    | none =>
      have hcs := cell?_isSome_iff board n hrect i j
      rw [hc] at hcs
      simp only [Option.isSome_none, Bool.false_eq_true, false_iff] at hcs
      simp only [Option.none_bind, Option.isSome_none, Bool.false_eq_true,
        false_iff]
      intro hcontra
      exact hcs ⟨hcontra.2.2.2.2.1, hcontra.2.2.2.2.2.1,
        hcontra.2.2.2.2.2.2.1, hcontra.2.2.2.2.2.2.2⟩
    | some piece =>
      have hij := (cell?_isSome_iff board n hrect i j).1 (by rw [hc]; rfl)
      simp only [Option.some_bind]
      have hset1 : (pySetCell board di dj piece).isSome = true := by
        rw [pySetCell_isSome_iff board n hrect di dj piece]
        obtain ⟨h1, h2, h3, h4⟩ := hA
        refine ⟨by omega, h2, by omega, h4⟩
      cases hb1 : pySetCell board di dj piece with
      | none => rw [hb1] at hset1; exact absurd hset1 (by simp)
      | some b1 =>
        simp only [Option.some_bind]
        obtain ⟨r, row, row2, hr, hrow, hrow2, hb1eq, hlen2⟩ :=
          pySetCell_shape board di dj piece b1 hb1
        have hb1len : b1.length = board.length := by
          rw [hb1eq]
          exact List.length_set board r row2
        have hb1rect : ∀ row' ∈ b1, row'.length = n := by
          intro row' hrow'
          rw [hb1eq] at hrow'
          rcases List.mem_or_eq_of_mem_set hrow' with hmem | heq
          · exact hrect row' hmem
          · rw [heq, hlen2]
            exact hrect row (by
              rw [List.getElem?_eq_some_iff] at hrow
              obtain ⟨hh, hrow⟩ := hrow
              rw [← hrow]
              exact List.getElem_mem hh)
        rw [pySetCell_isSome_iff b1 n hb1rect i j Cell.empty, hb1len]
        constructor
        · intro hijj
          exact ⟨hA.1, hA.2.1, hA.2.2.1, hA.2.2.2, hijj.1, hijj.2.1,
            hijj.2.2.1, hijj.2.2.2⟩
        · intro hall
          exact ⟨hall.2.2.2.2.1, hall.2.2.2.2.2.1, hall.2.2.2.2.2.2.1,
            hall.2.2.2.2.2.2.2⟩
  · rw [if_neg hA]
    simp only [Option.isSome_none, Bool.false_eq_true, false_iff]
    intro hcontra
    exact hA ⟨hcontra.1, hcontra.2.1, hcontra.2.2.1, hcontra.2.2.2.1⟩

/-- Witness for the amended C8: the out-of-range departure (-1, 0) on the
initial board satisfies the Python index ranges, so result succeeds there. -/
theorem c8_result_bounds_witness :
    init3 ≠ [] ∧ (∀ row ∈ init3, row.length = 3)
      ∧ ((result init3 ((-1 : Int), (0 : Int)) ((1 : Int), (0 : Int))).isSome
            = true ↔
          (0 ≤ (1 : Int) ∧ (1 : Int) < (init3.length : Int)
            ∧ 0 ≤ (0 : Int) ∧ (0 : Int) < ((3 : Nat) : Int)
            ∧ -(init3.length : Int) ≤ (-1 : Int)
            ∧ (-1 : Int) < (init3.length : Int)
            ∧ -((3 : Nat) : Int) ≤ (0 : Int) ∧ (0 : Int) < ((3 : Nat) : Int))) :=
  ⟨by decide, by decide,
   c8_result_bounds init3 3 (by decide) (by decide) (-1) 0 1 0⟩

/-!  Claim C9: initial_state. -/

/-- Setting position k of a row whose first k cells are already c extends the
filled part by one. -/
theorem fill_row_step (c : Cell) (k n : Nat) (hkn : k < n) :
    (List.replicate k c ++ List.replicate (n - k) Cell.empty).set k c
      = List.replicate (k + 1) c ++ List.replicate (n - (k + 1)) Cell.empty := by
  rw [List.set_append_right k c (by simp)]
  have h1 : k - (List.replicate k c).length = 0 := by simp
  rw [h1]
  have h2 : n - k = (n - (k + 1)) + 1 := by omega
  rw [h2, List.replicate_succ, List.set_cons_zero]
  rw [List.append_cons, ← List.replicate_succ' k c]

/-- The column loop of initial_state, after k iterations on an m x n empty
grid with m at least 2: the first k cells of row 0 are black and the first k
cells of row m-1 are white. -/
theorem initLoop_inv (m n : Nat) (hm : 2 ≤ m) :
    ∀ k, k ≤ n →
      initLoop m k (List.replicate m (List.replicate n Cell.empty))
        = some (((List.replicate m (List.replicate n Cell.empty)).set 0
              (List.replicate k Cell.black ++ List.replicate (n - k) Cell.empty)).set
            (m - 1)
            (List.replicate k Cell.white ++ List.replicate (n - k) Cell.empty)) := by
  intro k
  induction k with
  | zero =>
    intro _
    simp only [initLoop, List.replicate_zero, List.nil_append, Nat.sub_zero]
    rw [List.set_replicate_self, List.set_replicate_self]
  | succ k ih =>
    intro hk1
    have hkn : k < n := by omega
    simp only [initLoop]
    rw [ih (by omega)]
    simp only [Option.some_bind]
    have hmpos : 0 < m := by omega
    have hm1 : m - 1 < m := by omega
    have hm10 : m - 1 ≠ 0 := by omega
    have hlenB : (List.replicate k Cell.black
        ++ List.replicate (n - k) Cell.empty).length = n := by
      simp
      omega
    have hlenW : (List.replicate k Cell.white
        ++ List.replicate (n - k) Cell.empty).length = n := by
      simp
      omega
    have hG0 : (((List.replicate m (List.replicate n Cell.empty)).set 0
          (List.replicate k Cell.black ++ List.replicate (n - k) Cell.empty)).set
        (m - 1)
        (List.replicate k Cell.white ++ List.replicate (n - k) Cell.empty))[0]?
        = some (List.replicate k Cell.black
            ++ List.replicate (n - k) Cell.empty) := by
      rw [List.getElem?_set_ne hm10]
      rw [List.getElem?_set_self (by simpa using hmpos)]
    have hcast0 : ((0 : Nat) : Int) = (0 : Int) := rfl
    rw [← hcast0]
    rw [pySetCell_ofNat _ 0 k Cell.black _ hG0 (by rw [hlenB]; exact hkn)]
    simp only [Option.some_bind]
    rw [fill_row_step Cell.black k n hkn]
    rw [List.set_comm _ _ _ hm10]
    rw [List.set_set]
    have hstep1 : (((List.replicate m (List.replicate n Cell.empty)).set 0
          (List.replicate (k + 1) Cell.black
            ++ List.replicate (n - (k + 1)) Cell.empty)).set (m - 1)
          (List.replicate k Cell.white ++ List.replicate (n - k) Cell.empty))[m - 1]?
        = some (List.replicate k Cell.white
            ++ List.replicate (n - k) Cell.empty) := by
      rw [List.getElem?_set_self]
      simpa using hm1
    have hcast : ((m : Int) - 1) = ((m - 1 : Nat) : Int) := by omega
    rw [hcast]
    rw [pySetCell_ofNat _ (m - 1) k Cell.white _ hstep1 (by rw [hlenW]; exact hkn)]
    rw [fill_row_step Cell.white k n hkn]
    rw [List.set_set]

/-- Counterexample to C9 as stated: initial_state(1, 1) has m < 2 yet does
not fail; the two fill loops write the same single row, leaving it all white. -/
theorem c9_counterexample :
    initial_state 1 1 = some [[Cell.white]] ∧ 1 < 2 := by
  exact ⟨by decide, by decide⟩

/-- Amended C9: initial_state performs no precondition check; for m at least
2 and n at least 1 (and in fact any n) it returns the intended board: row 0
all black, row m-1 all white, every other row all empty. (For m = 1 the
single row ends up all white, and only m = 0 with n nonzero aborts, with an
IndexError rather than a precondition message.) -/
theorem c9_initial_state_valid (m n : Nat) (hm : 2 ≤ m) (hn : 1 ≤ n) :
    ∃ b, initial_state m n = some b
      ∧ b.length = m
      ∧ b[0]? = some (List.replicate n Cell.black)
      ∧ b[m - 1]? = some (List.replicate n Cell.white)
      ∧ ∀ i, 0 < i → i + 1 < m → b[i]? = some (List.replicate n Cell.empty) := by
  have h := initLoop_inv m n hm n (Nat.le_refl n)
  rw [Nat.sub_self, List.replicate_zero, List.append_nil, List.append_nil] at h
  refine ⟨_, h, ?_, ?_, ?_, ?_⟩
  · simp
  · rw [List.getElem?_set_ne (by omega)]
    rw [List.getElem?_set_self (by simpa using (by omega : 0 < m))]
  · rw [List.getElem?_set_self]
    simp
    omega
  · intro i hi0 hi1
    rw [List.getElem?_set_ne (by omega)]
    rw [List.getElem?_set_ne (by omega)]
    rw [List.getElem?_replicate_of_lt (by omega)]

/-- Witness for the amended C9 at m = n = 3. -/
theorem c9_initial_state_valid_witness :
    2 ≤ 3 ∧ 1 ≤ 3
      ∧ ∃ b, initial_state 3 3 = some b
          ∧ b.length = 3
          ∧ b[0]? = some (List.replicate 3 Cell.black)
          ∧ b[3 - 1]? = some (List.replicate 3 Cell.white)
          ∧ ∀ i, 0 < i → i + 1 < 3 → b[i]? = some (List.replicate 3 Cell.empty) :=
  ⟨by decide, by decide, c9_initial_state_valid 3 3 (by decide) (by decide)⟩

/-!  Counting groundwork for result. -/

/-- Updating one cell changes countP by the difference of the old and new
cell's predicate values, stated additively to stay in Nat. -/
theorem countP_set_balance (l : List α) (p : α → Bool) (v : α) :
    ∀ j, j < l.length →
      (l.set j v).countP p + (if p (l.getD j v) = true then 1 else 0)
        = l.countP p + (if p v = true then 1 else 0) := by
  induction l with
  | nil => intro j hj; simp at hj
  | cons a t ih =>
    intro j hj
    cases j with
    | zero =>
      rw [List.set_cons_zero, List.getD_cons_zero]
      rw [List.countP_cons, List.countP_cons]
      omega
    | succ j =>
      rw [List.set_cons_succ, List.getD_cons_succ]
      rw [List.countP_cons, List.countP_cons]
      have := ih j (by simpa using hj)
      omega

/-- Replacing one row changes the row-sum by the difference of the old and
new row's value, stated additively to stay in Nat. -/
theorem map_sum_set_balance (b : List α) (f : α → Nat) (r : α) :
    ∀ i, i < b.length →
      ((b.set i r).map f).sum + f (b.getD i r)
        = (b.map f).sum + f r := by
  induction b with
  | nil => intro i hi; simp at hi
  | cons a t ih =>
    intro i hi
    cases i with
    | zero =>
      rw [List.set_cons_zero, List.getD_cons_zero]
      simp only [List.map_cons, List.sum_cons]
      omega
    | succ i =>
      rw [List.set_cons_succ, List.getD_cons_succ]
      simp only [List.map_cons, List.sum_cons]
      have := ih i (by simpa using hi)
      omega

/-- Writing back the value already stored leaves the list unchanged. -/
theorem set_of_getElem? (l : List α) (j : Nat) (v : α) (h : l[j]? = some v) :
    l.set j v = l := by
  induction l generalizing j with
  | nil => simp at h
  | cons a t ih =>
    cases j with
    | zero =>
      rw [List.getElem?_cons_zero] at h
      injection h with h
      rw [List.set_cons_zero, ← h]
    | succ j =>
      rw [List.getElem?_cons_succ] at h
      rw [List.set_cons_succ, ih j h]

/-- Evaluation of result at canonical in-bounds coordinates on a rectangular
board: the assert passes, the piece is read at the departure, written at the
destination, and the departure is cleared on the already-updated board. -/
theorem result_ofNat (board : Board) (n : Nat)
    (hrect : ∀ row ∈ board, row.length = n)
    (i j qi qj : Nat) (hi : i < board.length) (hqi : qi < board.length)
    (hj : j < n) (hqj : qj < n) (piece : Cell)
    (hpiece : cellN board i j = some piece) :
    ∃ rowQ rowMid,
      board[qi]? = some rowQ
      ∧ (board.set qi (rowQ.set qj piece))[i]? = some rowMid
      ∧ result board ((i : Int), (j : Int)) ((qi : Int), (qj : Int))
          = some ((board.set qi (rowQ.set qj piece)).set i
              (rowMid.set j Cell.empty)) := by
  have hb : board ≠ [] := by
    intro h
    rw [h] at hi
    simp at hi
  have h0 : pyGet board (0 : Int) = board[0]? := by
    have hcast : ((0 : Nat) : Int) = (0 : Int) := rfl
    rw [← hcast, pyGet_ofNat]
  have hn : ((pyGet board (0 : Int)).getD []).length = n := by
    rw [h0]
    cases board with
    | nil => exact absurd rfl hb
    | cons r rest =>
      rw [List.getElem?_cons_zero]
      simp only [Option.getD_some]
      exact hrect r (by simp)
  obtain ⟨rowQ, hrowQ⟩ : ∃ rowQ, board[qi]? = some rowQ := by
    rw [List.getElem?_eq_getElem hqi]
    exact ⟨_, rfl⟩
  have hlenQ : rowQ.length = n := by
    refine hrect rowQ ?_
    rw [List.getElem?_eq_some_iff] at hrowQ
    obtain ⟨hh, hrowQ⟩ := hrowQ
    rw [← hrowQ]
    exact List.getElem_mem hh
  have hB1 : pySetCell board (qi : Int) (qj : Int) piece
      = some (board.set qi (rowQ.set qj piece)) :=
    pySetCell_ofNat board qi qj piece rowQ hrowQ (by rw [hlenQ]; exact hqj)
  obtain ⟨rowMid, hrowMid⟩ :
      ∃ rowMid, (board.set qi (rowQ.set qj piece))[i]? = some rowMid := by
    rw [List.getElem?_eq_getElem (by simpa using hi)]
    exact ⟨_, rfl⟩
  have hmemMid : rowMid ∈ board.set qi (rowQ.set qj piece) := by
    rw [List.getElem?_eq_some_iff] at hrowMid
    obtain ⟨hh, hrowMid⟩ := hrowMid
    rw [← hrowMid]
    exact List.getElem_mem hh
  have hlenMid : rowMid.length = n := by
    rcases List.mem_or_eq_of_mem_set hmemMid with hmem | heq
    · exact hrect rowMid hmem
    · rw [heq]
      rw [List.length_set]
      exact hlenQ
  have hB2 : pySetCell (board.set qi (rowQ.set qj piece)) (i : Int) (j : Int)
      Cell.empty
      = some ((board.set qi (rowQ.set qj piece)).set i
          (rowMid.set j Cell.empty)) :=
    pySetCell_ofNat (board.set qi (rowQ.set qj piece)) i j Cell.empty
      rowMid hrowMid (by rw [hlenMid]; exact hj)
  refine ⟨rowQ, rowMid, hrowQ, hrowMid, ?_⟩
  simp only [result]
  rw [hn]
  rw [if_pos (by constructor; omega; constructor; omega; constructor; omega; omega)]
  rw [cellN_eq_cell?, hpiece]
  simp only [Option.some_bind]
  rw [hB1]
  simp only [Option.some_bind]
  rw [hB2]

/-!  Claim C10: result with departure equal to destination. -/

/-- Counterexample to C10 as stated: at the empty in-bounds cell (1, 1) of
the initial board, the self-move succeeds but returns the board unchanged,
so the piece count does not strictly decrease. -/
theorem c10_counterexample :
    result init3 ((1 : Int), (1 : Int)) ((1 : Int), (1 : Int)) = some init3
      ∧ totalPieces init3 = 6 := by
  exact ⟨by decide, by decide⟩

/-- Amended C10: for any in-bounds cell p of a rectangular board, the
self-move succeeds and clears cell p, leaving every other cell unchanged;
when p held a piece the total piece count strictly decreases by one (the
piece vanishes), and when p was already empty the board is returned
unchanged. -/
theorem c10_self_move (board : Board) (n : Nat)
    (hrect : ∀ row ∈ board, row.length = n)
    (i j : Nat) (hi : i < board.length) (hj : j < n) :
    ∃ row, board[i]? = some row
      ∧ result board ((i : Int), (j : Int)) ((i : Int), (j : Int))
          = some (board.set i (row.set j Cell.empty))
      ∧ cellN (board.set i (row.set j Cell.empty)) i j = some Cell.empty
      ∧ (∀ r c : Nat, (r, c) ≠ (i, j) →
          cellN (board.set i (row.set j Cell.empty)) r c = cellN board r c)
      ∧ (row[j]? = some Cell.empty → board.set i (row.set j Cell.empty) = board)
      ∧ (∀ piece, row[j]? = some piece → piece ≠ Cell.empty →
          totalPieces (board.set i (row.set j Cell.empty)) + 1
            = totalPieces board) := by
  obtain ⟨row, hrow⟩ : ∃ row, board[i]? = some row := by
    rw [List.getElem?_eq_getElem hi]
    exact ⟨_, rfl⟩
  have hlen : row.length = n := by
    refine hrect row ?_
    rw [List.getElem?_eq_some_iff] at hrow
    obtain ⟨hh, hrow⟩ := hrow
    rw [← hrow]
    exact List.getElem_mem hh
  obtain ⟨piece, hpc⟩ : ∃ piece, row[j]? = some piece := by
    rw [List.getElem?_eq_getElem (by rw [hlen]; exact hj)]
    exact ⟨_, rfl⟩
  have hcellp : cellN board i j = some piece := by
    unfold cellN
    rw [hrow]
    simpa using hpc
  obtain ⟨rowQ, rowMid, hrowQ, hrowMid, hres⟩ :=
    result_ofNat board n hrect i j i j hi hi hj hj piece hcellp
  have hQ : rowQ = row := by
    rw [hrow] at hrowQ
    injection hrowQ with h
    exact h.symm
  subst hQ
  have hMid : rowMid = rowQ.set j piece := by
    rw [List.getElem?_set_self (by simpa using hi)] at hrowMid
    injection hrowMid with h
    exact h.symm
  subst hMid
  have hcollapse : (board.set i (rowQ.set j piece)).set i
      ((rowQ.set j piece).set j Cell.empty)
      = board.set i (rowQ.set j Cell.empty) := by
    rw [List.set_set, List.set_set]
  rw [hcollapse] at hres
  refine ⟨rowQ, hrow, hres, ?_, ?_, ?_, ?_⟩
  · unfold cellN
    rw [List.getElem?_set_self (by simpa using hi)]
    simp only [Option.some_bind]
    rw [List.getElem?_set_self (by rw [hlen]; exact hj)]
  · intro r c hrc
    unfold cellN
    by_cases hri : r = i
    · subst hri
      have hcj : c ≠ j := by
        intro h
        exact hrc (by rw [h])
      rw [List.getElem?_set_self (by simpa using hi)]
      rw [hrow]
      simp only [Option.some_bind]
      rw [List.getElem?_set_ne (Ne.symm hcj)]
    · rw [List.getElem?_set_ne (Ne.symm hri)]
  · intro hempty
    have : rowQ.set j Cell.empty = rowQ := set_of_getElem? rowQ j Cell.empty hempty
    rw [this]
    exact set_of_getElem? board i rowQ hrow
  · intro pc hpcc hne
    have hpiece : pc = piece := by
      rw [hpc] at hpcc
      injection hpcc with h
      exact h.symm
    subst hpiece
    unfold totalPieces
    have hbal := map_sum_set_balance board
      (fun r => r.countP (fun x => decide (x ≠ Cell.empty)))
      (rowQ.set j Cell.empty) i hi
    have hgetD : board.getD i (rowQ.set j Cell.empty) = rowQ := by
      rw [List.getD_eq_getElem?_getD, hrow]
      rfl
    rw [hgetD] at hbal
    have hrbal := countP_set_balance rowQ (fun x => decide (x ≠ Cell.empty))
      Cell.empty j (by rw [hlen]; exact hj)
    have hgetD2 : rowQ.getD j Cell.empty = pc := by
      rw [List.getD_eq_getElem?_getD, hpc]
      rfl
    rw [hgetD2] at hrbal
    simp only [] at hbal hrbal
    rw [if_pos (show (decide (pc ≠ Cell.empty)) = true by simpa using hne)] at hrbal
    rw [if_neg (show ¬((decide (Cell.empty ≠ Cell.empty)) = true) by decide)] at hrbal
    omega

/-- Witness for the amended C10 at cell (0, 0) of the initial board. -/
theorem c10_self_move_witness :
    (∀ row ∈ init3, row.length = 3) ∧ (0 : Nat) < init3.length ∧ (0 : Nat) < 3
      ∧ ∃ row, init3[0]? = some row
          ∧ result init3 ((0 : Int), (0 : Int)) ((0 : Int), (0 : Int))
              = some (init3.set 0 (row.set 0 Cell.empty))
          ∧ cellN (init3.set 0 (row.set 0 Cell.empty)) 0 0 = some Cell.empty
          ∧ (∀ r c : Nat, (r, c) ≠ (0, 0) →
              cellN (init3.set 0 (row.set 0 Cell.empty)) r c = cellN init3 r c)
          ∧ (row[0]? = some Cell.empty →
              init3.set 0 (row.set 0 Cell.empty) = init3)
          ∧ (∀ piece, row[0]? = some piece → piece ≠ Cell.empty →
              totalPieces (init3.set 0 (row.set 0 Cell.empty)) + 1
                = totalPieces init3) :=
  ⟨by decide, by decide, by decide,
   c10_self_move init3 3 (by decide) 0 0 (by decide) (by decide)⟩

/-!  Claim C7: result applied to a legal move. -/

/-- Counterexample to C7 as stated: the legal diagonal capture from (0, 1) to
(1, 0) on captureBoard removes the captured white pawn, so the total piece
count drops from 6 to 5 instead of being preserved. -/
theorem c7_counterexample :
    (((0 : Int), (1 : Int)), [((1 : Int), (1 : Int)), ((1 : Int), (0 : Int))])
        ∈ actions captureBoard Side.black
      ∧ result captureBoard ((0 : Int), (1 : Int)) ((1 : Int), (0 : Int))
          = some [[Cell.black, Cell.empty, Cell.black],
                  [Cell.black, Cell.empty, Cell.empty],
                  [Cell.empty, Cell.white, Cell.white]]
      ∧ totalPieces captureBoard = 6
      ∧ totalPieces [[Cell.black, Cell.empty, Cell.black],
                     [Cell.black, Cell.empty, Cell.empty],
                     [Cell.empty, Cell.white, Cell.white]] = 5 := by
  exact ⟨by decide, by decide, by decide, by decide⟩

/-- Amended C7: result on a move that legal_moves lists for some side moves
the side's piece from the departure to the destination, clears the departure,
leaves every other cell unchanged, and preserves the moving side's piece
count; the total piece count is preserved on a straight advance (empty
target) and decreases by exactly one on a diagonal capture (opponent
target). -/
theorem c7_apply_legal (board : Board) (turn : Side) (n : Nat)
    (hrect : ∀ row ∈ board, row.length = n)
    (p q : Pos) (ds : List Pos)
    (hp : (p, ds) ∈ actions board turn) (hq : q ∈ ds) :
    ∃ b', result board p q = some b'
      ∧ cell? board p.1 p.2 = some turn.cell
      ∧ cell? b' q.1 q.2 = some turn.cell
      ∧ cell? b' p.1 p.2 = some Cell.empty
      ∧ (∀ r c : Nat, ((r : Int), (c : Int)) ≠ p → ((r : Int), (c : Int)) ≠ q →
          cellN b' r c = cellN board r c)
      ∧ cellCount turn.cell b' = cellCount turn.cell board
      ∧ (cell? board q.1 q.2 = some Cell.empty →
          totalPieces b' = totalPieces board)
      ∧ (cell? board q.1 q.2 = some (dirOpp turn).2 →
          totalPieces b' + 1 = totalPieces board) := by
  have hb : board ≠ [] := by
    intro h
    subst h
    simp [actions, actionsRows] at hp
  rw [mem_actions board turn n hb hrect] at hp
  obtain ⟨i, j, hi, hj, hpe, hcell, hds, hne⟩ := hp
  subst hpe
  rw [hds] at hq
  rw [mem_pawnMoves] at hq
  have hd : (dirOpp turn).1 = -1 ∨ (dirOpp turn).1 = 1 := by
    cases turn
    · exact Or.inl rfl
    · exact Or.inr rfl
  have hkey : ∃ (qi qj : Nat) (tgt : Cell), q = ((qi : Int), (qj : Int))
      ∧ qi < board.length ∧ qj < n ∧ qi ≠ i
      ∧ cellN board qi qj = some tgt
      ∧ (tgt = Cell.empty ∨ tgt = (dirOpp turn).2) := by
    rcases hq with ⟨hqe, h1, h2, h3⟩ | ⟨hqe, h1, h2, h3, h4, h5⟩ |
      ⟨hqe, h1, h2, h3, h4, h5⟩
    · have hci := Int.toNat_of_nonneg h1
      refine ⟨((i : Int) + (dirOpp turn).1).toNat, j, Cell.empty,
        ?_, by omega, hj, ?_, ?_, Or.inl rfl⟩
      · rw [hqe, hci]
      · rcases hd with hdd | hdd <;> omega
      · rw [← hci] at h3
        rw [cellN_eq_cell?] at h3
        exact h3
    · have hci := Int.toNat_of_nonneg h1
      have hcj := Int.toNat_of_nonneg h3
      refine ⟨((i : Int) + (dirOpp turn).1).toNat, ((j : Int) - 1).toNat,
        (dirOpp turn).2, ?_, by omega, by omega, ?_, ?_, Or.inr rfl⟩
      · rw [hqe, hci, hcj]
      · rcases hd with hdd | hdd <;> omega
      · rw [← hci, ← hcj] at h5
        rw [cellN_eq_cell?] at h5
        exact h5
    · have hci := Int.toNat_of_nonneg h1
      have hcj := Int.toNat_of_nonneg h3
      refine ⟨((i : Int) + (dirOpp turn).1).toNat, ((j : Int) + 1).toNat,
        (dirOpp turn).2, ?_, by omega, by omega, ?_, ?_, Or.inr rfl⟩
      · rw [hqe, hci, hcj]
      · rcases hd with hdd | hdd <;> omega
      · rw [← hci, ← hcj] at h5
        rw [cellN_eq_cell?] at h5
        exact h5
  obtain ⟨qi, qj, tgt, hqe, hqi, hqj, hqne, hcellQ, htgtcase⟩ := hkey
  subst hqe
  obtain ⟨rowI, hrowI, hpcI⟩ : ∃ rowI, board[i]? = some rowI
      ∧ rowI[j]? = some turn.cell := by
    unfold cellN at hcell
    cases hrowI : board[i]? with
    | none => rw [hrowI] at hcell; exact absurd hcell (by simp)
    | some rowI =>
      rw [hrowI] at hcell
      simp only [Option.some_bind] at hcell
      exact ⟨rowI, rfl, hcell⟩
  have hlenI : rowI.length = n := by
    refine hrect rowI ?_
    rw [List.getElem?_eq_some_iff] at hrowI
    obtain ⟨hh, hrowI⟩ := hrowI
    rw [← hrowI]
    exact List.getElem_mem hh
  obtain ⟨rowQ, rowMid, hrowQ, hrowMid, hres⟩ :=
    result_ofNat board n hrect i j qi qj hi hqi hj hqj turn.cell hcell
  have hlenQ : rowQ.length = n := by
    refine hrect rowQ ?_
    rw [List.getElem?_eq_some_iff] at hrowQ
    obtain ⟨hh, hrowQ⟩ := hrowQ
    rw [← hrowQ]
    exact List.getElem_mem hh
  have htgtQ : rowQ[qj]? = some tgt := by
    unfold cellN at hcellQ
    rw [hrowQ] at hcellQ
    simpa using hcellQ
  have hMid : rowMid = rowI := by
    rw [List.getElem?_set_ne hqne, hrowI] at hrowMid
    injection hrowMid with h
    exact h.symm
  rw [hMid] at hres
  have hGen : ∀ pr : Cell → Bool,
      ((((board.set qi (rowQ.set qj turn.cell)).set i
          (rowI.set j Cell.empty)).map (fun row => row.countP pr)).sum
        + (if pr tgt = true then 1 else 0)
        + (if pr turn.cell = true then 1 else 0))
        = ((board.map (fun row => row.countP pr)).sum
          + (if pr Cell.empty = true then 1 else 0)
          + (if pr turn.cell = true then 1 else 0)) := by
    intro pr
    have hbal1 := map_sum_set_balance (board.set qi (rowQ.set qj turn.cell))
      (fun row => row.countP pr) (rowI.set j Cell.empty) i (by simpa using hi)
    have hbal2 := map_sum_set_balance board (fun row => row.countP pr)
      (rowQ.set qj turn.cell) qi hqi
    have hrb1 := countP_set_balance rowI pr Cell.empty j
      (by rw [hlenI]; exact hj)
    have hrb2 := countP_set_balance rowQ pr turn.cell qj
      (by rw [hlenQ]; exact hqj)
    have hg1 : (board.set qi (rowQ.set qj turn.cell)).getD i
        (rowI.set j Cell.empty) = rowI := by
      rw [List.getD_eq_getElem?_getD, List.getElem?_set_ne hqne, hrowI]
      rfl
    have hg2 : board.getD qi (rowQ.set qj turn.cell) = rowQ := by
      rw [List.getD_eq_getElem?_getD, hrowQ]
      rfl
    have hg3 : rowI.getD j Cell.empty = turn.cell := by
      rw [List.getD_eq_getElem?_getD, hpcI]
      rfl
    have hg4 : rowQ.getD qj turn.cell = tgt := by
      rw [List.getD_eq_getElem?_getD, htgtQ]
      rfl
    rw [hg1] at hbal1
    rw [hg2] at hbal2
    rw [hg3] at hrb1
    rw [hg4] at hrb2
    simp only [] at hbal1 hbal2 hrb1 hrb2 ⊢
    omega
  refine ⟨_, hres, ?_, ?_, ?_, ?_, ?_, ?_, ?_⟩
  · show cell? board (i : Int) (j : Int) = some turn.cell
    rw [cellN_eq_cell?]
    exact hcell
  · show cell? ((board.set qi (rowQ.set qj turn.cell)).set i
        (rowI.set j Cell.empty)) (qi : Int) (qj : Int) = some turn.cell
    rw [cellN_eq_cell?]
    unfold cellN
    rw [List.getElem?_set_ne (Ne.symm hqne)]
    rw [List.getElem?_set_self (by simpa using hqi)]
    simp only [Option.some_bind]
    rw [List.getElem?_set_self (by rw [hlenQ]; exact hqj)]
  · show cell? ((board.set qi (rowQ.set qj turn.cell)).set i
        (rowI.set j Cell.empty)) (i : Int) (j : Int) = some Cell.empty
    rw [cellN_eq_cell?]
    unfold cellN
    rw [List.getElem?_set_self (by simpa using hi)]
    simp only [Option.some_bind]
    rw [List.getElem?_set_self (by rw [hlenI]; exact hj)]
  · intro r c hrp hrq
    have hrpN : ¬(r = i ∧ c = j) := by
      intro h
      exact hrp (by rw [h.1, h.2])
    have hrqN : ¬(r = qi ∧ c = qj) := by
      intro h
      exact hrq (by rw [h.1, h.2])
    unfold cellN
    by_cases hri : r = i
    · subst hri
      have hcj : c ≠ j := fun h => hrpN ⟨rfl, h⟩
      rw [List.getElem?_set_self (by simpa using hi)]
      rw [hrowI]
      simp only [Option.some_bind]
      rw [List.getElem?_set_ne (Ne.symm hcj)]
    · rw [List.getElem?_set_ne (Ne.symm hri)]
      by_cases hrqi : r = qi
      · subst hrqi
        have hcqj : c ≠ qj := fun h => hrqN ⟨rfl, h⟩
        rw [List.getElem?_set_self (by simpa using hqi)]
        rw [hrowQ]
        simp only [Option.some_bind]
        rw [List.getElem?_set_ne (Ne.symm hcqj)]
      · rw [List.getElem?_set_ne (Ne.symm hrqi)]
  · show cellCount turn.cell _ = cellCount turn.cell board
    unfold cellCount
    have h := hGen (fun x => decide (x = turn.cell))
    simp only [] at h ⊢
    rw [if_neg (show ¬((decide (Cell.empty = turn.cell)) = true) by
      cases turn <;> decide)] at h
    rw [if_neg (show ¬((decide (tgt = turn.cell)) = true) by
      rcases htgtcase with h1 | h1 <;> rw [h1] <;> cases turn <;> decide)] at h
    omega
  · intro hstr
    have htgt' : tgt = Cell.empty := by
      rw [cellN_eq_cell?, hcellQ] at hstr
      simpa using hstr
    subst htgt'
    unfold totalPieces
    have h := hGen (fun x => decide (x ≠ Cell.empty))
    simp only [] at h ⊢
    rw [if_neg (show ¬((decide (Cell.empty ≠ Cell.empty)) = true) by decide)] at h
    omega
  · intro hcap
    have htgt' : tgt = (dirOpp turn).2 := by
      rw [cellN_eq_cell?, hcellQ] at hcap
      simpa using hcap
    subst htgt'
    unfold totalPieces
    have h := hGen (fun x => decide (x ≠ Cell.empty))
    simp only [] at h ⊢
    rw [if_neg (show ¬((decide (Cell.empty ≠ Cell.empty)) = true) by decide)] at h
    rw [if_pos (show (decide ((dirOpp turn).2 ≠ Cell.empty)) = true by
      cases turn <;> decide)] at h
    rw [if_pos (show (decide (turn.cell ≠ Cell.empty)) = true by
      cases turn <;> decide)] at h
    omega

/-- Witness for the amended C7 at the diagonal capture on captureBoard. -/
theorem c7_apply_legal_witness :
    (∀ row ∈ captureBoard, row.length = 3)
      ∧ ((((0 : Int), (1 : Int)), [((1 : Int), (1 : Int)), ((1 : Int), (0 : Int))])
          ∈ actions captureBoard Side.black)
      ∧ (((1 : Int), (0 : Int))
          ∈ [((1 : Int), (1 : Int)), ((1 : Int), (0 : Int))])
      ∧ ∃ b', result captureBoard ((0 : Int), (1 : Int)) ((1 : Int), (0 : Int))
            = some b'
          ∧ cell? captureBoard (0 : Int) (1 : Int) = some Side.black.cell
          ∧ cell? b' (1 : Int) (0 : Int) = some Side.black.cell
          ∧ cell? b' (0 : Int) (1 : Int) = some Cell.empty
          ∧ (∀ r c : Nat, ((r : Int), (c : Int)) ≠ ((0 : Int), (1 : Int)) →
              ((r : Int), (c : Int)) ≠ ((1 : Int), (0 : Int)) →
              cellN b' r c = cellN captureBoard r c)
          ∧ cellCount Side.black.cell b' = cellCount Side.black.cell captureBoard
          ∧ (cell? captureBoard (1 : Int) (0 : Int) = some Cell.empty →
              totalPieces b' = totalPieces captureBoard)
          ∧ (cell? captureBoard (1 : Int) (0 : Int) = some (dirOpp Side.black).2 →
              totalPieces b' + 1 = totalPieces captureBoard) :=
  ⟨by decide, by decide, by decide,
   c7_apply_legal captureBoard Side.black 3 (by decide)
     ((0 : Int), (1 : Int)) ((1 : Int), (0 : Int))
     [((1 : Int), (1 : Int)), ((1 : Int), (0 : Int))] (by decide) (by decide)⟩

end Hexapawn
